import Mathlib

/-!
Shallow embedding of the `entity-list` Rust crate: a generational-index
entity registry (`EntityList` in `src/lib.rs`) and its split-borrow
dynamic iterator (`EntityDynIter` in `src/iter.rs`).

Machine integers (`u32`, `usize`) are modelled as `Nat`; payloads
(`Entity { name: &'static str }`) keep their structure with a `String`
name.  Mutating Rust methods are modelled as functions returning the
result together with the new state.  Rust panics are modelled with an
explicit `RustResult.panicked` constructor where the source can panic.
-/

/-- Handle: `EntityId { id: u32, gen: u32 }` from `src/lib.rs`. -/
structure EntityId where
  id : Nat
  gen : Nat
deriving DecidableEq, Repr

/-- Payload: `Entity { name: &'static str }` from `src/lib.rs`. -/
structure Entity where
  name : String
deriving DecidableEq, Repr

/-- Slot: `EntityEntry { gen: u32, entity: Option<Entity> }` from `src/lib.rs`. -/
structure EntityEntry where
  gen : Nat
  entity : Option Entity
deriving DecidableEq, Repr

/-- Result of a Rust call that can panic: `panicked` models an abort from a
failed bounds assertion (e.g. `slice::split_at_mut` with `mid > len`). -/
inductive RustResult (α : Type) where
  | panicked
  | ok (val : α)
deriving DecidableEq, Repr

namespace EntityList

/-- Generation-checked access to a single entry:
`EntityEntry::get_mut` from `src/lib.rs` (lines 22-30). -/
def entryGet (entry : EntityEntry) (id : EntityId) : Option Entity :=
  if entry.gen = id.gen then entry.entity else none

/-- The scan loop of `EntityList::add` (`src/lib.rs` lines 37-46): walk the
slots in index order; at the first vacant one, store the payload, bump the
generation and report the local index, the new generation and the updated
list.  `none` means no slot was vacant. -/
def add_go (v : Entity) : List EntityEntry → Option (Nat × Nat × List EntityEntry)
  | [] => none
  | entry :: rest =>
    if entry.entity.isNone then
      some (0, entry.gen + 1, ⟨entry.gen + 1, some v⟩ :: rest)
    else
      (add_go v rest).map (fun r => (r.1 + 1, r.2.1, entry :: r.2.2))

/-- `EntityList::add` (`src/lib.rs` lines 36-56): reuse the first vacant slot
(bumping its generation), otherwise append a fresh slot with generation 0. -/
def add (l : List EntityEntry) (v : Entity) : EntityId × List EntityEntry :=
  match add_go v l with
  | some (i, g, l2) => (⟨i, g⟩, l2)
  | none => (⟨l.length, 0⟩, l ++ [⟨0, some v⟩])

/-- `EntityList::remove` (`src/lib.rs` lines 58-62): `entity.take()` on the
slot at `id.id` when in range; the generation field is untouched. -/
def remove (l : List EntityEntry) (id : EntityId) : Option Entity × List EntityEntry :=
  match l.get? id.id with
  | none => (none, l)
  | some entry => (entry.entity, l.set id.id ⟨entry.gen, none⟩)

/-- `EntityList::get` (`src/lib.rs` lines 64-72): generation-checked lookup. -/
def get (l : List EntityEntry) (id : EntityId) : Option Entity :=
  (l.get? id.id).bind fun e => if e.gen = id.gen then e.entity else none

/-- `EntityList::get_pair_mut` (`src/lib.rs` lines 84-125).  The two
unequal-index branches call `self.0.split_at_mut(<larger index>)`, which
panics when that index exceeds the length, hence the `RustResult` wrapper;
within bounds the split becomes `take`/`drop`.  The equal-index branches
never split and follow the source conditions verbatim. -/
def get_pair_mut (l : List EntityEntry) (a b : EntityId) :
    RustResult (Option Entity × Option Entity) :=
  if a.id < b.id then
    if b.id ≤ l.length then
      .ok (((l.take b.id).get? a.id).bind (fun entry => entryGet entry a),
           ((l.drop b.id).head?).bind (fun s => entryGet s b))
    else .panicked
  else if b.id < a.id then
    if a.id ≤ l.length then
      .ok (((l.drop a.id).head?).bind (fun s => entryGet s a),
           ((l.take a.id).get? b.id).bind (fun entry => entryGet entry b))
    else .panicked
  else if ((l.get? a.id).map (fun o => decide (a.gen ≠ o.gen))).getD true then
    .ok (none, (l.get? b.id).bind (fun entry => entryGet entry b))
  else
    .ok ((l.get? a.id).bind (fun entry => entryGet entry a), none)

/-- A registry mutation: the two state-changing methods of `EntityList`. -/
inductive Op where
  | add (v : Entity)
  | remove (id : EntityId)

/-- Apply one operation to the registry, discarding the returned value. -/
def applyOp (l : List EntityEntry) : Op → List EntityEntry
  | .add v => (add l v).2
  | .remove id => (remove l id).2

/-- Apply a whole sequence of operations, left to right. -/
def applyOps (l : List EntityEntry) (ops : List Op) : List EntityEntry :=
  ops.foldl applyOp l

end EntityList

/-- View: `EntitySlice { start: usize, slice: &mut [EntityEntry] }` from
`src/iter.rs` (lines 6-10). -/
structure EntitySlice where
  start : Nat
  slice : List EntityEntry
deriving DecidableEq, Repr

/-- SplitIterator: `EntityDynIter(SmallVec<[EntitySlice; 2]>)` from
`src/iter.rs` (line 50).  The SmallVec is an ordered sequence of views,
modelled as a list. -/
abbrev EntityDynIter : Type := List EntitySlice

namespace EntityDynIter

/-- `EntityDynIter::new_all` (`src/iter.rs` lines 53-58). -/
def new_all (source : List EntityEntry) : EntityDynIter :=
  [⟨0, source⟩]

/-- `EntityDynIter::new_split` (`src/iter.rs` lines 60-79).  `split_at_mut`
panics when the split index exceeds the length, hence the `RustResult`
wrapper; `split_first_mut()?` on an empty right half makes the whole call
return `none`. -/
def new_split (source : List EntityEntry) (split_idx : Nat) :
    RustResult (Option (EntityEntry × EntityDynIter)) :=
  if split_idx ≤ source.length then
    match source.drop split_idx with
    | [] => .ok none
    | center :: right =>
      .ok (some (center, [⟨0, source.take split_idx⟩, ⟨split_idx + 1, right⟩]))
  else .panicked

/-- The view-membership test shared by `exclude` and `exclude_copy`:
`slice.start <= idx && idx < slice.start + slice.slice.len()`. -/
def containsIdx (idx : Nat) (sl : EntitySlice) : Bool :=
  decide (sl.start ≤ idx) && decide (idx < sl.start + sl.slice.length)

/-- `EntityDynIter::dyn_iter_id` (`src/iter.rs` lines 81-101): enumerate each
view's entries offset by the view's `start`, then keep the occupied ones
paired with a handle carrying the slot's current generation. -/
def dyn_iter_id (d : EntityDynIter) : List (EntityId × Entity) :=
  (d.flatMap fun sl => sl.slice.enum.map fun p => (p.1 + sl.start, p.2)).filterMap
    fun p => p.2.entity.map fun e => (⟨p.1, p.2.gen⟩, e)

/-- `DynIter::dyn_iter` for `EntityDynIter` (`src/iter.rs` lines 212-224). -/
def dyn_iter (d : EntityDynIter) : List Entity :=
  d.flatMap fun sl => sl.slice.filterMap fun s => s.entity

/-- `EntityDynIter::exclude` (`src/iter.rs` lines 128-156), as a state
transformer: the `Option<&mut Entity>` result together with the views after
the call.  On a miss or a stale handle the views are unchanged; on success
the containing view is replaced by the left remainder and the right
remainder is pushed at the end of the collection.  The inner `none` branches
are unreachable given `findIdx?` semantics; they model the source's
indexing and `split_first_mut()?`. -/
def exclude (d : EntityDynIter) (id : EntityId) : Option Entity × EntityDynIter :=
  let idx := id.id
  match d.findIdx? (containsIdx idx) with
  | none => (none, d)
  | some slice_idx =>
    match d.get? slice_idx with
    | none => (none, d)
    | some sl =>
      match sl.slice.get? (idx - sl.start) with
      | none => (none, d)
      | some entry =>
        if entry.gen ≠ id.gen ∨ entry.entity = none then (none, d)
        else
          match sl.slice.drop (idx - sl.start) with
          | [] => (none, d)
          | center :: right =>
            (center.entity,
              (d.set slice_idx ⟨sl.start, sl.slice.take (idx - sl.start)⟩) ++
                [⟨idx + 1, right⟩])

/-- `EntityDynIter::exclude_copy` (`src/iter.rs` lines 158-209): the fork.
`none` when no view contains the index; on a stale handle the fork is a
clone of the current views; on success the containing view is replaced, in
place, by the left and right remainders.  `self` is only re-borrowed by the
source (no push/set/take on `self.0`), so the parent's views after the call
are exactly the views before it. -/
def exclude_copy (d : EntityDynIter) (id : EntityId) :
    Option (Option Entity × EntityDynIter) :=
  let idx := id.id
  match d.findIdx? (containsIdx idx) with
  | none => none
  | some slice_idx =>
    match d.get? slice_idx with
    | none => none
    | some sl =>
      match sl.slice.get? (idx - sl.start) with
      | none => none
      | some entry =>
        if entry.gen ≠ id.gen ∨ entry.entity = none then some (none, d)
        else
          match sl.slice.drop (idx - sl.start) with
          | [] => none
          | center :: right =>
            some (center.entity,
              d.take slice_idx ++
                [⟨sl.start, sl.slice.take (idx - sl.start)⟩, ⟨idx + 1, right⟩] ++
                d.drop (slice_idx + 1))

/-- The list of `(handle, payload)` pairs contributed to `dyn_iter_id` by a
single view whose absolute offset is `s`, in recursive form (used only in
proofs; `dyn_iter_id` itself follows the source shape). -/
def sliceYields (s : Nat) : List EntityEntry → List (EntityId × Entity)
  | [] => []
  | entry :: rest =>
    (match entry.entity with
     | some e => [(⟨s, entry.gen⟩, e)]
     | none => []) ++ sliceYields (s + 1) rest

/-- The views of `d` are faithful windows onto the registry `l`: an entry
found at local index `j` of a view really is the registry entry at absolute
index `start + j`.  This is the aliasing invariant the Rust borrow splitting
maintains by construction. -/
def Agrees (l : List EntityEntry) (d : EntityDynIter) : Prop :=
  ∀ sl ∈ d, ∀ (j : Nat) (entry : EntityEntry),
    sl.slice.get? j = some entry → l.get? (sl.start + j) = some entry

/-- The SplitIterator states reachable from registry `l`: built by
`new_all` or `new_split` and transformed by any number of `exclude` or
`exclude_copy` (fork) calls. -/
inductive Derived (l : List EntityEntry) : EntityDynIter → Prop where
  | all : Derived l (new_all l)
  | split (i : Nat) (c : EntityEntry) (d : EntityDynIter) :
      new_split l i = .ok (some (c, d)) → Derived l d
  | excl (d : EntityDynIter) (id : EntityId) (r : Option Entity)
      (d2 : EntityDynIter) : Derived l d → exclude d id = (r, d2) → Derived l d2
  | fork (d : EntityDynIter) (id : EntityId) (r : Option Entity)
      (d2 : EntityDynIter) : Derived l d → exclude_copy d id = some (r, d2) →
      Derived l d2

theorem sliceYields_cons (s : Nat) (entry : EntityEntry) (rest : List EntityEntry) :
    sliceYields s (entry :: rest) =
      (match entry.entity with
       | some e => [(⟨s, entry.gen⟩, e)]
       | none => []) ++ sliceYields (s + 1) rest := rfl

theorem sliceYields_eq_filterMap (s : Nat) (l : List EntityEntry) : ∀ n : Nat,
    ((l.enumFrom n).map fun p => (p.1 + s, p.2)).filterMap
        (fun p => p.2.entity.map fun e => (⟨p.1, p.2.gen⟩, e)) =
      sliceYields (n + s) l := by
  induction l with
  | nil => intro n; rfl
  | cons entry rest ih =>
    intro n
    rw [List.enumFrom_cons, List.map_cons, List.filterMap_cons, sliceYields_cons,
      show n + s + 1 = n + 1 + s from by omega, ← ih (n + 1)]
    cases h : entry.entity with
    | none => simp [h]
    | some e => simp [h]

theorem dyn_iter_id_eq (d : EntityDynIter) :
    dyn_iter_id d = d.flatMap fun sl => sliceYields sl.start sl.slice := by
  induction d with
  | nil => rfl
  | cons sl rest ih =>
    simp only [dyn_iter_id, List.flatMap_cons, List.filterMap_append] at ih ⊢
    rw [ih]
    congr 1
    have := sliceYields_eq_filterMap sl.start sl.slice 0
    simpa [List.enum] using this

theorem sliceYields_append (s : Nat) (L R : List EntityEntry) :
    sliceYields s (L ++ R) = sliceYields s L ++ sliceYields (s + L.length) R := by
  induction L generalizing s with
  | nil => simp [sliceYields]
  | cons entry rest ih =>
    rw [List.cons_append, sliceYields_cons, sliceYields_cons, ih (s + 1),
      List.length_cons, show s + (rest.length + 1) = s + 1 + rest.length from by omega,
      List.append_assoc]

theorem mem_sliceYields {s : Nat} {l : List EntityEntry} {p : EntityId × Entity} :
    p ∈ sliceYields s l ↔
      ∃ j entry, l[j]? = some entry ∧ entry.entity = some p.2 ∧
        p.1 = ⟨s + j, entry.gen⟩ := by
  induction l generalizing s with
  | nil => simp [sliceYields]
  | cons entry rest ih =>
    rw [sliceYields_cons]
    simp only [List.mem_append]
    constructor
    · rintro (hl | hr)
      · cases h : entry.entity with
        | none => rw [h] at hl; simp at hl
        | some e =>
          rw [h] at hl
          simp only [List.mem_singleton] at hl
          refine ⟨0, entry, by simp, by simp [hl, h], by simp [hl]⟩
      · rcases ih.mp hr with ⟨j, entry2, hj, hocc, hfst⟩
        refine ⟨j + 1, entry2, by simpa using hj, hocc, ?_⟩
        rw [hfst]
        simp only [EntityId.mk.injEq]
        exact ⟨by omega, trivial⟩
    · rintro ⟨j, entry2, hj, hocc, hfst⟩
      cases j with
      | zero =>
        left
        have hj0 : entry = entry2 := by simpa using hj
        subst hj0
        rw [hocc]
        simp only [List.mem_singleton]
        refine Prod.ext_iff.mpr ⟨?_, rfl⟩
        rw [hfst]
        simp only [EntityId.mk.injEq]
        exact ⟨by omega, trivial⟩
      | succ j =>
        right
        refine ih.mpr ⟨j, entry2, by simpa using hj, hocc, ?_⟩
        rw [hfst]
        simp only [EntityId.mk.injEq]
        exact ⟨by omega, trivial⟩

theorem sliceYields_bounds {s : Nat} {l : List EntityEntry} {p : EntityId × Entity}
    (h : p ∈ sliceYields s l) : s ≤ p.1.id ∧ p.1.id < s + l.length := by
  rcases mem_sliceYields.mp h with ⟨j, entry, hj, _, hfst⟩
  have hjlen : j < l.length := (List.getElem?_eq_some_iff.mp hj).1
  have hid : p.1.id = s + j := by rw [hfst]
  omega

theorem sliceYields_pairwise (s : Nat) (l : List EntityEntry) :
    (sliceYields s l).Pairwise fun p q => p.1.id < q.1.id := by
  induction l generalizing s with
  | nil => exact List.Pairwise.nil
  | cons entry rest ih =>
    cases h : entry.entity with
    | none => simpa [sliceYields, h] using ih (s + 1)
    | some e =>
      simp only [sliceYields, h, List.singleton_append]
      refine List.Pairwise.cons (fun q hq => ?_) (ih (s + 1))
      have := (sliceYields_bounds hq).1
      show s < q.1.id
      omega

theorem containsIdx_bounds {idx : Nat} {sl : EntitySlice}
    (h : containsIdx idx sl = true) :
    sl.start ≤ idx ∧ idx < sl.start + sl.slice.length := by
  simpa [containsIdx] using h

theorem found_slice {d : EntityDynIter} {idx k : Nat}
    (h : d.findIdx? (containsIdx idx) = some k) :
    ∃ sl, d.get? k = some sl ∧ containsIdx idx sl = true := by
  rcases List.findIdx?_eq_some_iff_getElem.mp h with ⟨hk, hp, _⟩
  exact ⟨d[k], by simp, hp⟩

theorem exclude_of_not_found {d : EntityDynIter} {id : EntityId}
    (hfind : d.findIdx? (containsIdx id.id) = none) : exclude d id = (none, d) := by
  simp only [exclude, hfind]

theorem exclude_of_found {d : EntityDynIter} {id : EntityId} {k : Nat}
    {sl : EntitySlice} {entry : EntityEntry}
    (hfind : d.findIdx? (containsIdx id.id) = some k)
    (hget : d.get? k = some sl)
    (hentry : sl.slice.get? (id.id - sl.start) = some entry) :
    (entry.gen ≠ id.gen ∨ entry.entity = none → exclude d id = (none, d)) ∧
    (entry.gen = id.gen → entry.entity ≠ none →
      exclude d id = (entry.entity,
        (d.set k ⟨sl.start, sl.slice.take (id.id - sl.start)⟩) ++
          [⟨id.id + 1, sl.slice.drop (id.id - sl.start + 1)⟩])) := by
  obtain ⟨hmlt, hmval⟩ := List.getElem?_eq_some_iff.mp (by simpa using hentry)
  have hdrop : sl.slice.drop (id.id - sl.start) =
      entry :: sl.slice.drop (id.id - sl.start + 1) := by
    rw [List.drop_eq_getElem_cons hmlt, hmval]
  constructor
  · intro hstale
    simp only [exclude, hfind, hget, hentry]
    rw [if_pos hstale]
  · intro hgen hocc
    simp only [exclude, hfind, hget, hentry, hdrop]
    rw [if_neg (by simp [hgen, hocc])]

theorem exclude_copy_of_not_found {d : EntityDynIter} {id : EntityId}
    (hfind : d.findIdx? (containsIdx id.id) = none) : exclude_copy d id = none := by
  simp only [exclude_copy, hfind]

theorem exclude_copy_of_found {d : EntityDynIter} {id : EntityId} {k : Nat}
    {sl : EntitySlice} {entry : EntityEntry}
    (hfind : d.findIdx? (containsIdx id.id) = some k)
    (hget : d.get? k = some sl)
    (hentry : sl.slice.get? (id.id - sl.start) = some entry) :
    (entry.gen ≠ id.gen ∨ entry.entity = none → exclude_copy d id = some (none, d)) ∧
    (entry.gen = id.gen → entry.entity ≠ none →
      exclude_copy d id = some (entry.entity,
        d.take k ++
          [⟨sl.start, sl.slice.take (id.id - sl.start)⟩,
           ⟨id.id + 1, sl.slice.drop (id.id - sl.start + 1)⟩] ++
          d.drop (k + 1))) := by
  obtain ⟨hmlt, hmval⟩ := List.getElem?_eq_some_iff.mp (by simpa using hentry)
  have hdrop : sl.slice.drop (id.id - sl.start) =
      entry :: sl.slice.drop (id.id - sl.start + 1) := by
    rw [List.drop_eq_getElem_cons hmlt, hmval]
  constructor
  · intro hstale
    simp only [exclude_copy, hfind, hget, hentry]
    rw [if_pos hstale]
  · intro hgen hocc
    simp only [exclude_copy, hfind, hget, hentry, hdrop]
    rw [if_neg (by simp [hgen, hocc])]

theorem flatMap_take_cons_drop {α : Type} {d : EntityDynIter} {k : Nat}
    {sl : EntitySlice} (hget : d.get? k = some sl) (g : EntitySlice → List α) :
    d.flatMap g = (d.take k).flatMap g ++ (g sl ++ (d.drop (k + 1)).flatMap g) := by
  induction d generalizing k with
  | nil => simp at hget
  | cons a rest ih =>
    cases k with
    | zero =>
      have ha : a = sl := by simpa using hget
      subst ha
      simp
    | succ k =>
      have hget2 : rest.get? k = some sl := by simpa using hget
      simp only [List.take_succ_cons, List.drop_succ_cons, List.flatMap_cons,
        ih hget2, List.append_assoc]

theorem flatMap_set {α : Type} {d : EntityDynIter} {k : Nat} {sl : EntitySlice}
    (x : EntitySlice) (hget : d.get? k = some sl) (g : EntitySlice → List α) :
    (d.set k x).flatMap g =
      (d.take k).flatMap g ++ (g x ++ (d.drop (k + 1)).flatMap g) := by
  induction d generalizing k with
  | nil => simp at hget
  | cons a rest ih =>
    cases k with
    | zero => simp
    | succ k =>
      have hget2 : rest.get? k = some sl := by simpa using hget
      simp only [List.set_cons_succ, List.take_succ_cons, List.drop_succ_cons,
        List.flatMap_cons, ih hget2, List.append_assoc]

theorem exclude_some_inv {d : EntityDynIter} {id : EntityId} {e : Entity}
    {d2 : EntityDynIter} (h : exclude d id = (some e, d2)) :
    ∃ k sl entry, d.findIdx? (containsIdx id.id) = some k ∧ d.get? k = some sl ∧
      sl.slice.get? (id.id - sl.start) = some entry ∧
      sl.start ≤ id.id ∧ id.id - sl.start < sl.slice.length ∧
      entry.gen = id.gen ∧ entry.entity = some e ∧
      d2 = (d.set k ⟨sl.start, sl.slice.take (id.id - sl.start)⟩) ++
        [⟨id.id + 1, sl.slice.drop (id.id - sl.start + 1)⟩] := by
  cases hfind : d.findIdx? (containsIdx id.id) with
  | none => rw [exclude_of_not_found hfind] at h; simp at h
  | some k =>
    obtain ⟨sl, hget, hcont⟩ := found_slice hfind
    obtain ⟨hs, hlt⟩ := containsIdx_bounds hcont
    have hmlt : id.id - sl.start < sl.slice.length := by omega
    have hentry : sl.slice.get? (id.id - sl.start) =
        some (sl.slice.get ⟨id.id - sl.start, hmlt⟩) := by
      simp
    by_cases hst : (sl.slice.get ⟨id.id - sl.start, hmlt⟩).gen ≠ id.gen ∨
        (sl.slice.get ⟨id.id - sl.start, hmlt⟩).entity = none
    · rw [(exclude_of_found hfind hget hentry).1 hst] at h
      simp at h
    · push_neg at hst
      obtain ⟨hgen, hocc⟩ := hst
      have heq := (exclude_of_found hfind hget hentry).2 (by simpa using hgen) hocc
      rw [heq] at h
      have h1 : (sl.slice.get ⟨id.id - sl.start, hmlt⟩).entity = some e :=
        congrArg Prod.fst h
      have h2 := congrArg Prod.snd h
      exact ⟨k, sl, sl.slice.get ⟨id.id - sl.start, hmlt⟩, rfl, hget, hentry, hs,
        hmlt, by simpa using hgen, h1, h2.symm⟩

theorem exclude_copy_some_inv {d : EntityDynIter} {id : EntityId} {r : Option Entity}
    {d2 : EntityDynIter} (h : exclude_copy d id = some (r, d2)) :
    (r = none ∧ d2 = d) ∨
    (∃ k sl entry, d.findIdx? (containsIdx id.id) = some k ∧ d.get? k = some sl ∧
      sl.slice.get? (id.id - sl.start) = some entry ∧
      sl.start ≤ id.id ∧ id.id - sl.start < sl.slice.length ∧
      entry.gen = id.gen ∧ entry.entity = r ∧
      d2 = d.take k ++
        [⟨sl.start, sl.slice.take (id.id - sl.start)⟩,
         ⟨id.id + 1, sl.slice.drop (id.id - sl.start + 1)⟩] ++
        d.drop (k + 1)) := by
  cases hfind : d.findIdx? (containsIdx id.id) with
  | none => rw [exclude_copy_of_not_found hfind] at h; simp at h
  | some k =>
    obtain ⟨sl, hget, hcont⟩ := found_slice hfind
    obtain ⟨hs, hlt⟩ := containsIdx_bounds hcont
    have hmlt : id.id - sl.start < sl.slice.length := by omega
    have hentry : sl.slice.get? (id.id - sl.start) =
        some (sl.slice.get ⟨id.id - sl.start, hmlt⟩) := by
      simp
    by_cases hst : (sl.slice.get ⟨id.id - sl.start, hmlt⟩).gen ≠ id.gen ∨
        (sl.slice.get ⟨id.id - sl.start, hmlt⟩).entity = none
    · rw [(exclude_copy_of_found hfind hget hentry).1 hst] at h
      left
      have hp := Option.some.inj h
      exact ⟨(congrArg Prod.fst hp).symm, (congrArg Prod.snd hp).symm⟩
    · push_neg at hst
      obtain ⟨hgen, hocc⟩ := hst
      have heq := (exclude_copy_of_found hfind hget hentry).2 (by simpa using hgen) hocc
      rw [heq] at h
      right
      have hp := Option.some.inj h
      exact ⟨k, sl, sl.slice.get ⟨id.id - sl.start, hmlt⟩, rfl, hget, hentry, hs,
        hmlt, by simpa using hgen, congrArg Prod.fst hp, (congrArg Prod.snd hp).symm⟩

theorem perm_rearrange {α : Type} (P A B S : List α) (x : α) :
    List.Perm (P ++ (A ++ (x :: (B ++ S)))) (x :: (P ++ (A ++ (S ++ B)))) := by
  have h1 : P ++ (A ++ (x :: (B ++ S))) = (P ++ A) ++ (x :: (B ++ S)) := by
    rw [List.append_assoc]
  have h2 : List.Perm ((P ++ A) ++ (x :: (B ++ S))) (x :: ((P ++ A) ++ (B ++ S))) :=
    List.perm_middle
  have h3 : List.Perm (x :: ((P ++ A) ++ (B ++ S))) (x :: ((P ++ A) ++ (S ++ B))) :=
    List.Perm.cons x (List.Perm.append_left (P ++ A) (@List.perm_append_comm _ B S))
  have h4 : x :: ((P ++ A) ++ (S ++ B)) = x :: (P ++ (A ++ (S ++ B))) := by
    rw [List.append_assoc]
  rw [h1, ← h4]
  exact h2.trans h3

theorem exclude_some_perm {d : EntityDynIter} {id : EntityId} {e : Entity}
    {d2 : EntityDynIter} (h : exclude d id = (some e, d2)) :
    List.Perm (dyn_iter_id d) ((⟨id.id, id.gen⟩, e) :: dyn_iter_id d2) := by
  obtain ⟨k, sl, entry, hfind, hget, hentry, hs, hmlt, hgen, hocc, hd2⟩ :=
    exclude_some_inv h
  have hval : sl.slice.get ⟨id.id - sl.start, hmlt⟩ = entry := by
    have := List.getElem?_eq_some_iff.mp (by simpa using hentry)
    simpa using this.2
  have hslice : sl.slice =
      sl.slice.take (id.id - sl.start) ++
        (entry :: sl.slice.drop (id.id - sl.start + 1)) := by
    conv_lhs => rw [← List.take_append_drop (id.id - sl.start) sl.slice]
    rw [List.drop_eq_getElem_cons hmlt]
    have : sl.slice[id.id - sl.start] = entry := hval
    rw [this]
  have hlen : (sl.slice.take (id.id - sl.start)).length = id.id - sl.start := by
    rw [List.length_take]; omega
  have hyield : sliceYields sl.start sl.slice =
      sliceYields sl.start (sl.slice.take (id.id - sl.start)) ++
        ((⟨id.id, id.gen⟩, e) ::
          sliceYields (id.id + 1) (sl.slice.drop (id.id - sl.start + 1))) := by
    conv_lhs => rw [hslice]
    rw [sliceYields_append, hlen, sliceYields_cons, hocc,
      show sl.start + (id.id - sl.start) = id.id from by omega, hgen,
      List.singleton_append]
  have hleft := flatMap_take_cons_drop hget
    (fun sl : EntitySlice => sliceYields sl.start sl.slice)
  have hset := flatMap_set (⟨sl.start, sl.slice.take (id.id - sl.start)⟩ : EntitySlice)
    hget (fun sl : EntitySlice => sliceYields sl.start sl.slice)
  rw [dyn_iter_id_eq, dyn_iter_id_eq, hd2, List.flatMap_append, hset, hleft, hyield]
  simp only [List.flatMap_cons, List.flatMap_nil, List.append_nil, List.append_assoc,
    List.cons_append]
  exact perm_rearrange _ _ _ _ _

theorem new_split_ok_inv {l : List EntityEntry} {i : Nat} {c : EntityEntry}
    {d : EntityDynIter} (h : new_split l i = .ok (some (c, d))) :
    i < l.length ∧ l.get? i = some c ∧
      d = [⟨0, l.take i⟩, ⟨i + 1, l.drop (i + 1)⟩] := by
  unfold new_split at h
  split at h
  case isTrue hle =>
    cases hdrop : l.drop i with
    | nil => rw [hdrop] at h; simp at h
    | cons center right =>
      rw [hdrop] at h
      simp only [RustResult.ok.injEq, Option.some.injEq, Prod.mk.injEq] at h
      obtain ⟨hc, hd⟩ := h
      have hlen : i < l.length := by
        by_contra hge
        rw [List.drop_eq_nil_of_le (by omega)] at hdrop
        exact List.noConfusion hdrop
      have hcd : center :: right = l[i] :: l.drop (i + 1) := by
        rw [← hdrop]
        exact List.drop_eq_getElem_cons hlen
      injection hcd with h1 h2
      refine ⟨hlen, ?_, ?_⟩
      · rw [← hc, h1]; simp
      · rw [← hd, h2]
  case isFalse => exact absurd h (by simp)

theorem agrees_new_all (l : List EntityEntry) : Agrees l (new_all l) := by
  intro sl hsl j entry hj
  simp only [new_all, List.mem_singleton] at hsl
  subst hsl
  simpa using hj

theorem agrees_new_split {l : List EntityEntry} {i : Nat} {c : EntityEntry}
    {d : EntityDynIter} (h : new_split l i = .ok (some (c, d))) : Agrees l d := by
  obtain ⟨hlen, _, hd⟩ := new_split_ok_inv h
  subst hd
  intro sl hsl j entry hj
  simp only [List.mem_cons, List.mem_singleton, List.not_mem_nil, or_false] at hsl
  rcases hsl with h1 | h2
  · subst h1
    simp only at hj ⊢
    rw [List.get?_eq_getElem?] at hj ⊢
    rcases Nat.lt_or_ge j i with hji | hji
    · rw [Nat.zero_add, ← List.getElem?_take_of_lt hji]
      exact hj
    · rw [List.getElem?_take_eq_none hji] at hj
      exact Option.noConfusion hj
  · subst h2
    simp only at hj ⊢
    rw [List.get?_eq_getElem?] at hj ⊢
    rw [List.getElem?_drop] at hj
    rw [show i + 1 + j = i + 1 + j from rfl]
    exact hj

theorem agrees_sub_take {l : List EntityEntry} {sl : EntitySlice}
    (h : ∀ (j : Nat) (entry : EntityEntry),
      sl.slice.get? j = some entry → l.get? (sl.start + j) = some entry) (n : Nat) :
    ∀ (j : Nat) (entry : EntityEntry),
      (sl.slice.take n).get? j = some entry → l.get? (sl.start + j) = some entry := by
  intro j entry hj
  apply h
  rw [List.get?_eq_getElem?] at hj ⊢
  rcases Nat.lt_or_ge j n with hji | hji
  · rw [← List.getElem?_take_of_lt hji]
    exact hj
  · rw [List.getElem?_take_eq_none hji] at hj
    exact Option.noConfusion hj

theorem exclude_none_inv {d : EntityDynIter} {id : EntityId} {d2 : EntityDynIter}
    (h : exclude d id = (none, d2)) : d2 = d := by
  cases hfind : d.findIdx? (containsIdx id.id) with
  | none =>
    rw [exclude_of_not_found hfind] at h
    exact (congrArg Prod.snd h).symm
  | some k =>
    obtain ⟨sl, hget, hcont⟩ := found_slice hfind
    obtain ⟨hs, hlt⟩ := containsIdx_bounds hcont
    have hmlt : id.id - sl.start < sl.slice.length := by omega
    have hentry : sl.slice.get? (id.id - sl.start) =
        some (sl.slice.get ⟨id.id - sl.start, hmlt⟩) := by
      simp
    by_cases hst : (sl.slice.get ⟨id.id - sl.start, hmlt⟩).gen ≠ id.gen ∨
        (sl.slice.get ⟨id.id - sl.start, hmlt⟩).entity = none
    · rw [(exclude_of_found hfind hget hentry).1 hst] at h
      exact (congrArg Prod.snd h).symm
    · push_neg at hst
      obtain ⟨hgen, hocc⟩ := hst
      rw [(exclude_of_found hfind hget hentry).2 (by simpa using hgen) hocc] at h
      have hx : (sl.slice.get ⟨id.id - sl.start, hmlt⟩).entity =
          (none : Option Entity) := congrArg Prod.fst h
      exact absurd hx hocc

theorem agrees_exclude {l : List EntityEntry} {d d2 : EntityDynIter}
    {id : EntityId} {r : Option Entity} (hA : Agrees l d)
    (h : exclude d id = (r, d2)) : Agrees l d2 := by
  cases r with
  | none =>
    have : d2 = d := exclude_none_inv h
    subst this
    exact hA
  | some e =>
    obtain ⟨k, sl, entry, hfind, hget, hentry, hs, hmlt, hgen, hocc, hd2⟩ :=
      exclude_some_inv h
    have hsl_mem : sl ∈ d := List.getElem?_mem (by simpa using hget)
    have hsl_agrees := hA sl hsl_mem
    subst hd2
    intro sl2 hsl2 j entry2 hj
    rcases List.mem_append.mp hsl2 with hmem | hnew
    · rcases List.mem_or_eq_of_mem_set hmem with hold | hx
      · exact hA sl2 hold j entry2 hj
      · subst hx
        exact agrees_sub_take hsl_agrees _ j entry2 hj
    · have hsl2_eq : sl2 = ⟨id.id + 1, sl.slice.drop (id.id - sl.start + 1)⟩ := by
        simpa using hnew
      subst hsl2_eq
      simp only at hj ⊢
      rw [List.get?_eq_getElem?] at hj
      rw [List.getElem?_drop] at hj
      have := hsl_agrees (id.id - sl.start + 1 + j) entry2
        (by rw [List.get?_eq_getElem?]; exact hj)
      rw [show sl.start + (id.id - sl.start + 1 + j) = id.id + 1 + j from by omega] at this
      exact this

theorem agrees_exclude_copy {l : List EntityEntry} {d d2 : EntityDynIter}
    {id : EntityId} {r : Option Entity} (hA : Agrees l d)
    (h : exclude_copy d id = some (r, d2)) : Agrees l d2 := by
  rcases exclude_copy_some_inv h with ⟨_, hd2⟩ | hsucc
  · subst hd2; exact hA
  · obtain ⟨k, sl, entry, hfind, hget, hentry, hs, hmlt, hgen, hocc, hd2⟩ := hsucc
    have hsl_mem : sl ∈ d := List.getElem?_mem (by simpa using hget)
    have hsl_agrees := hA sl hsl_mem
    subst hd2
    intro sl2 hsl2 j entry2 hj
    rcases List.mem_append.mp hsl2 with hmem | hdrop
    rcases List.mem_append.mp hmem with htake | hmid
    · exact hA sl2 (List.mem_of_mem_take htake) j entry2 hj
    · simp only [List.mem_cons, List.mem_singleton, List.not_mem_nil, or_false] at hmid
      rcases hmid with h1 | h2
      · subst h1
        exact agrees_sub_take hsl_agrees _ j entry2 hj
      · subst h2
        simp only at hj ⊢
        rw [List.get?_eq_getElem?] at hj
        rw [List.getElem?_drop] at hj
        have := hsl_agrees (id.id - sl.start + 1 + j) entry2
          (by rw [List.get?_eq_getElem?]; exact hj)
        rw [show sl.start + (id.id - sl.start + 1 + j) = id.id + 1 + j
          from by omega] at this
        exact this
    · exact hA sl2 (List.mem_of_mem_drop hdrop) j entry2 hj

theorem agrees_of_derived {l : List EntityEntry} {d : EntityDynIter}
    (h : Derived l d) : Agrees l d := by
  induction h with
  | all => exact agrees_new_all l
  | split i c d hsplit => exact agrees_new_split hsplit
  | excl d id r d2 _ hexcl ih => exact agrees_exclude ih hexcl
  | fork d id r d2 _ hfork ih => exact agrees_exclude_copy ih hfork

theorem get_of_agrees {l : List EntityEntry} {d : EntityDynIter} (hA : Agrees l d) :
    ∀ p ∈ dyn_iter_id d, EntityList.get l p.1 = some p.2 := by
  intro p hp
  rw [dyn_iter_id_eq] at hp
  rcases List.mem_flatMap.mp hp with ⟨sl, hsl, hmem⟩
  rcases mem_sliceYields.mp hmem with ⟨j, entry, hj, hocc, hfst⟩
  have hreg := hA sl hsl j entry (by rw [List.get?_eq_getElem?]; exact hj)
  unfold EntityList.get
  rw [hfst]
  simp only
  rw [hreg]
  simp [hocc]

end EntityDynIter

namespace EntityList

theorem add_go_eq_none {v : Entity} {l : List EntityEntry}
    (h : ∀ entry ∈ l, entry.entity ≠ none) : add_go v l = none := by
  induction l with
  | nil => rfl
  | cons entry rest ih =>
    have h0 : entry.entity.isNone = false := by
      rcases hx : entry.entity with _ | e
      · exact absurd hx (h entry (by simp))
      · rfl
    simp only [add_go, h0, Bool.false_eq_true, if_false]
    rw [ih fun e he => h e (List.mem_cons_of_mem _ he)]
    rfl

theorem add_go_eq_some {v : Entity} {l : List EntityEntry} {i : Nat}
    {entry : EntityEntry} (hi : l.get? i = some entry) (hvac : entry.entity = none)
    (hmin : ∀ (j : Nat) (ej : EntityEntry), j < i → l.get? j = some ej →
      ej.entity ≠ none) :
    add_go v l = some (i, entry.gen + 1, l.set i ⟨entry.gen + 1, some v⟩) := by
  induction l generalizing i with
  | nil => simp at hi
  | cons a rest ih =>
    cases i with
    | zero =>
      have ha : a = entry := by simpa using hi
      subst ha
      simp [add_go, hvac]
    | succ i =>
      have ha : a.entity ≠ none := hmin 0 a (Nat.succ_pos i) (by simp)
      have h0 : a.entity.isNone = false := by
        rcases hx : a.entity with _ | e
        · exact absurd hx ha
        · rfl
      simp only [add_go, h0, Bool.false_eq_true, if_false]
      rw [ih (by simpa using hi)
        fun j ej hj hg => hmin (j + 1) ej (by omega) (by simpa using hg)]
      simp

theorem add_go_some_inv {v : Entity} {l : List EntityEntry} {i g : Nat}
    {l2 : List EntityEntry} (h : add_go v l = some (i, g, l2)) :
    ∃ entry, l.get? i = some entry ∧ entry.entity = none ∧ g = entry.gen + 1 ∧
      l2 = l.set i ⟨entry.gen + 1, some v⟩ := by
  induction l generalizing i g l2 with
  | nil => simp [add_go] at h
  | cons a rest ih =>
    by_cases ha : a.entity.isNone
    · have hvac : a.entity = none := Option.isNone_iff_eq_none.mp ha
      rw [add_go, if_pos ha] at h
      simp only [Option.some.injEq, Prod.mk.injEq] at h
      obtain ⟨hi0, hg, hl2⟩ := h
      refine ⟨a, ?_, hvac, hg.symm, ?_⟩
      · rw [← hi0]; simp
      · rw [← hl2, ← hi0]; simp
    · rw [add_go, if_neg ha] at h
      rcases hrec : add_go v rest with _ | r
      · rw [hrec] at h; simp at h
      · rw [hrec] at h
        simp only [Option.map_some'] at h
        obtain ⟨rj, rg, rl⟩ := r
        have hp := Option.some.inj h
        have h1 : rj + 1 = i := congrArg (fun t => t.1) hp
        have h2 : rg = g := congrArg (fun t => t.2.1) hp
        have h3 : a :: rl = l2 := congrArg (fun t => t.2.2) hp
        obtain ⟨entry, he1, he2, he3, he4⟩ := ih hrec
        refine ⟨entry, ?_, he2, ?_, ?_⟩
        · rw [← h1]; simpa using he1
        · rw [← h2]; exact he3
        · rw [← h3, ← h1, he4]; simp

theorem get_none_of_gen_ne {l : List EntityEntry} {h : EntityId}
    {entry : EntityEntry} (hq : l.get? h.id = some entry)
    (hne : entry.gen ≠ h.gen) : get l h = none := by
  unfold get
  rw [hq, Option.some_bind]
  exact if_neg hne

theorem gen_mono_applyOp (l : List EntityEntry) (op : Op) (i : Nat)
    (entry : EntityEntry) (h : l.get? i = some entry) :
    ∃ entry2, (applyOp l op).get? i = some entry2 ∧ entry.gen ≤ entry2.gen := by
  have hilen : i < l.length := (List.getElem?_eq_some_iff.mp (by simpa using h)).1
  cases op with
  | add v =>
    simp only [applyOp, add]
    rcases hgo : add_go v l with _ | r
    · refine ⟨entry, ?_, Nat.le_refl _⟩
      rw [List.get?_eq_getElem?, List.getElem?_append_left hilen]
      simpa using h
    · obtain ⟨j, g, l2⟩ := r
      obtain ⟨e0, he1, he2, he3, he4⟩ := add_go_some_inv hgo
      subst he4
      by_cases hij : j = i
      · subst hij
        have he : e0 = entry := Option.some.inj (he1.symm.trans h)
        refine ⟨⟨e0.gen + 1, some v⟩, ?_, ?_⟩
        · rw [List.get?_eq_getElem?]
          simpa using List.getElem?_set_self hilen
        · rw [← he]
          show e0.gen ≤ e0.gen + 1
          omega
      · refine ⟨entry, ?_, Nat.le_refl _⟩
        rw [List.get?_eq_getElem?, List.getElem?_set_ne hij]
        simpa using h
  | remove id =>
    simp only [applyOp, remove]
    rcases hq : l.get? id.id with _ | e0
    · exact ⟨entry, h, Nat.le_refl _⟩
    · simp only
      by_cases hii : id.id = i
      · subst hii
        have he : e0 = entry := Option.some.inj (hq.symm.trans h)
        refine ⟨⟨e0.gen, none⟩, ?_, ?_⟩
        · rw [List.get?_eq_getElem?]
          simpa using List.getElem?_set_self hilen
        · rw [← he]
      · refine ⟨entry, ?_, Nat.le_refl _⟩
        rw [List.get?_eq_getElem?, List.getElem?_set_ne hii]
        simpa using h

theorem gen_mono_applyOps (l : List EntityEntry) (ops : List Op) (i : Nat)
    (entry : EntityEntry) (h : l.get? i = some entry) :
    ∃ entry2, (applyOps l ops).get? i = some entry2 ∧ entry.gen ≤ entry2.gen := by
  induction ops generalizing l entry with
  | nil => exact ⟨entry, h, Nat.le_refl _⟩
  | cons op ops ih =>
    obtain ⟨e1, h1, hle1⟩ := gen_mono_applyOp l op i entry h
    obtain ⟨e2, h2, hle2⟩ := ih _ _ h1
    exact ⟨e2, h2, Nat.le_trans hle1 hle2⟩

end EntityList

/-- Claim C2: `insert`/`add` scans the slots in ascending index order for
the first vacant one; if the first vacant slot is at index `i` it stores
the payload there, increments that slot's generation and returns the
handle `⟨i, new generation⟩`; if no slot is vacant it appends a new slot
with generation 0 holding the payload and returns `⟨old length, 0⟩`. -/
theorem c2_insert_spec (l : List EntityEntry) (v : Entity) :
    (∀ (i : Nat) (entry : EntityEntry), l.get? i = some entry →
      entry.entity = none →
      (∀ (j : Nat) (ej : EntityEntry), j < i → l.get? j = some ej →
        ej.entity ≠ none) →
      EntityList.add l v =
        (⟨i, entry.gen + 1⟩, l.set i ⟨entry.gen + 1, some v⟩)) ∧
    ((∀ entry ∈ l, entry.entity ≠ none) →
      EntityList.add l v = (⟨l.length, 0⟩, l ++ [⟨0, some v⟩])) := by
  constructor
  · intro i entry hi hvac hmin
    unfold EntityList.add
    rw [EntityList.add_go_eq_some hi hvac hmin]
  · intro hocc
    unfold EntityList.add
    rw [EntityList.add_go_eq_none hocc]

theorem c2_insert_witness :
    EntityList.add [⟨0, some ⟨"a"⟩⟩, ⟨1, none⟩, ⟨0, none⟩] ⟨"d"⟩ =
      (⟨1, 2⟩, [⟨0, some ⟨"a"⟩⟩, ⟨2, some ⟨"d"⟩⟩, ⟨0, none⟩]) ∧
    EntityList.add [⟨0, some ⟨"a"⟩⟩] ⟨"b"⟩ =
      (⟨1, 0⟩, [⟨0, some ⟨"a"⟩⟩, ⟨0, some ⟨"b"⟩⟩]) := by
  constructor
  · exact (c2_insert_spec _ _).1 1 ⟨1, none⟩ rfl rfl
      (by
        intro j ej hj hg
        have hj0 : j = 0 := by omega
        subst hj0
        have : (⟨0, some ⟨"a"⟩⟩ : EntityEntry) = ej := by simpa using hg
        rw [← this]
        simp)
  · exact (c2_insert_spec _ _).2
      (by
        intro entry he
        have : entry = ⟨0, some ⟨"a"⟩⟩ := by simpa using he
        rw [this]
        simp)

/-- Claim C4: `remove` vacates the slot at the handle's index and returns
its payload whenever the index is in range and the slot is occupied,
without any generation check, and `remove` never changes any slot's
generation counter. -/
theorem c4_remove_spec (l : List EntityEntry) (id : EntityId) :
    (∀ (j : Nat), ((EntityList.remove l id).2.get? j).map EntityEntry.gen =
      (l.get? j).map EntityEntry.gen) ∧
    (∀ (entry : EntityEntry) (e : Entity), l.get? id.id = some entry →
      entry.entity = some e →
      (EntityList.remove l id).1 = some e ∧
      (EntityList.remove l id).2.get? id.id = some ⟨entry.gen, none⟩) := by
  unfold EntityList.remove
  rcases hq : l.get? id.id with _ | entry0
  · exact ⟨fun j => rfl, fun entry e hget hocc => absurd hget (by simp)⟩
  · have hlen : id.id < l.length :=
      (List.getElem?_eq_some_iff.mp (by simpa using hq)).1
    constructor
    · intro j
      show ((l.set id.id ⟨entry0.gen, none⟩).get? j).map EntityEntry.gen =
        (l.get? j).map EntityEntry.gen
      by_cases hji : id.id = j
      · subst hji
        rw [List.get?_eq_getElem?, List.getElem?_set_self hlen, hq]
        rfl
      · rw [List.get?_eq_getElem?, List.getElem?_set_ne hji, ← List.get?_eq_getElem?]
    · intro entry e hget hocc
      have he : entry0 = entry := Option.some.inj hget
      subst he
      constructor
      · exact hocc
      · show (l.set id.id ⟨entry0.gen, none⟩).get? id.id = some ⟨entry0.gen, none⟩
        rw [List.get?_eq_getElem?]
        simpa using List.getElem?_set_self hlen

theorem c4_remove_witness :
    (EntityList.remove [⟨3, some ⟨"b"⟩⟩] ⟨0, 99⟩).1 = some ⟨"b"⟩ ∧
    (EntityList.remove [⟨3, some ⟨"b"⟩⟩] ⟨0, 99⟩).2.get? 0 = some ⟨3, none⟩ :=
  (c4_remove_spec [⟨3, some ⟨"b"⟩⟩] ⟨0, 99⟩).2 ⟨3, some ⟨"b"⟩⟩ ⟨"b"⟩ rfl rfl

/-- Claim C5: a slot's generation counter starts at 0 when the slot is
created by the appending insertion (whose handle therefore carries
generation 0), and every insertion into an already-existing slot
increments the slot's generation, so the handle returned for a reused
slot carries generation at least 1. -/
theorem c5_generation_spec (l : List EntityEntry) (v : Entity) :
    ((∀ entry ∈ l, entry.entity ≠ none) →
      (EntityList.add l v).1.gen = 0 ∧
      (EntityList.add l v).2.get? l.length = some ⟨0, some v⟩) ∧
    (∀ (i : Nat) (entry : EntityEntry), l.get? i = some entry →
      entry.entity = none →
      (∀ (j : Nat) (ej : EntityEntry), j < i → l.get? j = some ej →
        ej.entity ≠ none) →
      (EntityList.add l v).1.gen = entry.gen + 1 ∧
      (EntityList.add l v).2.get? i = some ⟨entry.gen + 1, some v⟩ ∧
      1 ≤ (EntityList.add l v).1.gen) := by
  constructor
  · intro hocc
    unfold EntityList.add
    rw [EntityList.add_go_eq_none hocc]
    refine ⟨rfl, ?_⟩
    rw [List.get?_eq_getElem?]
    exact List.getElem?_concat_length l ⟨0, some v⟩
  · intro i entry hi hvac hmin
    have hlen : i < l.length := (List.getElem?_eq_some_iff.mp (by simpa using hi)).1
    unfold EntityList.add
    rw [EntityList.add_go_eq_some hi hvac hmin]
    refine ⟨rfl, ?_, ?_⟩
    · rw [List.get?_eq_getElem?]
      simpa using List.getElem?_set_self hlen
    · show 1 ≤ entry.gen + 1
      omega

theorem c5_generation_witness :
    (EntityList.add [⟨0, some ⟨"a"⟩⟩] ⟨"b"⟩).1.gen = 0 ∧
    (EntityList.add [⟨0, some ⟨"a"⟩⟩, ⟨0, none⟩] ⟨"d"⟩).1.gen = 1 ∧
    1 ≤ (EntityList.add [⟨0, some ⟨"a"⟩⟩, ⟨0, none⟩] ⟨"d"⟩).1.gen := by
  have h1 := (c5_generation_spec [⟨0, some ⟨"a"⟩⟩] ⟨"b"⟩).1
    (by
      intro entry he
      have : entry = ⟨0, some ⟨"a"⟩⟩ := by simpa using he
      rw [this]
      simp)
  have h2 := (c5_generation_spec [⟨0, some ⟨"a"⟩⟩, ⟨0, none⟩] ⟨"d"⟩).2 1 ⟨0, none⟩
    rfl rfl
    (by
      intro j ej hj hg
      have hj1 : j < 1 := hj
      have hj0 : j = 0 := by omega
      subst hj0
      have : (⟨0, some ⟨"a"⟩⟩ : EntityEntry) = ej := by simpa using hg
      rw [← this]
      simp)
  exact ⟨h1.1, h2.1, h2.2.2⟩

/-- Claim C7 and the code bug behind it.  The spec says an out-of-range
split index (any `index ≥ length`) makes `split_at`/`new_split` return an
empty result and never abort; in the source, `source.0.split_at_mut(split_idx)`
asserts `split_idx <= len`, so every index strictly greater than the
length panics; only `index = length` falls through to `split_first_mut()?`
and returns `None`.  Evaluations at a one-slot registry. -/
theorem c7_split_oob :
    EntityDynIter.new_split [⟨0, some ⟨"a"⟩⟩] 2 = .panicked ∧
    EntityDynIter.new_split [⟨0, some ⟨"a"⟩⟩] 1 = .ok none := by
  decide

/-- Claim C8: an insertion that reuses a previously-vacated slot strictly
increases that slot's generation; a handle whose generation is below the
slot's current generation resolves to nothing under `get` after any
further sequence of operations (generations never decrease); in
particular a handle captured before removal stays unresolvable forever
once an insertion reoccupies its index. -/
theorem c8_reuse_invalidates :
    (∀ (l : List EntityEntry) (v : Entity) (i : Nat) (entry : EntityEntry),
      l.get? i = some entry → entry.entity = none →
      (∀ (j : Nat) (ej : EntityEntry), j < i → l.get? j = some ej →
        ej.entity ≠ none) →
      ∃ entry2, (EntityList.add l v).2.get? i = some entry2 ∧
        entry.gen < entry2.gen) ∧
    (∀ (l : List EntityEntry) (h : EntityId) (entry : EntityEntry)
        (ops : List EntityList.Op),
      l.get? h.id = some entry → h.gen < entry.gen →
      EntityList.get (EntityList.applyOps l ops) h = none) ∧
    (∀ (l : List EntityEntry) (h : EntityId) (entry : EntityEntry) (v : Entity)
        (ops : List EntityList.Op),
      l.get? h.id = some entry → entry.entity = none → entry.gen = h.gen →
      (∀ (j : Nat) (ej : EntityEntry), j < h.id → l.get? j = some ej →
        ej.entity ≠ none) →
      EntityList.get (EntityList.applyOps (EntityList.add l v).2 ops) h = none) := by
  have key : ∀ (l : List EntityEntry) (v : Entity) (i : Nat) (entry : EntityEntry),
      l.get? i = some entry → entry.entity = none →
      (∀ (j : Nat) (ej : EntityEntry), j < i → l.get? j = some ej →
        ej.entity ≠ none) →
      (EntityList.add l v).2.get? i = some ⟨entry.gen + 1, some v⟩ := by
    intro l v i entry hi hvac hmin
    have hlen : i < l.length := (List.getElem?_eq_some_iff.mp (by simpa using hi)).1
    unfold EntityList.add
    rw [EntityList.add_go_eq_some hi hvac hmin]
    rw [List.get?_eq_getElem?]
    simpa using List.getElem?_set_self hlen
  have mono : ∀ (l : List EntityEntry) (h : EntityId) (entry : EntityEntry)
      (ops : List EntityList.Op),
      l.get? h.id = some entry → h.gen < entry.gen →
      EntityList.get (EntityList.applyOps l ops) h = none := by
    intro l h entry ops hq hlt
    obtain ⟨entry2, h2, hle⟩ := EntityList.gen_mono_applyOps l ops h.id entry hq
    exact EntityList.get_none_of_gen_ne h2 (by omega)
  refine ⟨?_, mono, ?_⟩
  · intro l v i entry hi hvac hmin
    exact ⟨⟨entry.gen + 1, some v⟩, key l v i entry hi hvac hmin,
      by show entry.gen < entry.gen + 1; omega⟩
  · intro l h entry v ops hq hvac hgen hmin
    exact mono _ h ⟨entry.gen + 1, some v⟩ ops (key l v h.id entry hq hvac hmin)
      (by show h.gen < entry.gen + 1; omega)

theorem c8_reuse_invalidates_witness :
    EntityList.get
      (EntityList.applyOps
        (EntityList.add [⟨0, some ⟨"a"⟩⟩, ⟨0, none⟩, ⟨0, some ⟨"c"⟩⟩] ⟨"d"⟩).2
        [EntityList.Op.remove ⟨2, 0⟩, EntityList.Op.add ⟨"f"⟩]) ⟨1, 0⟩ = none :=
  c8_reuse_invalidates.2.2 [⟨0, some ⟨"a"⟩⟩, ⟨0, none⟩, ⟨0, some ⟨"c"⟩⟩] ⟨1, 0⟩
    ⟨0, none⟩ ⟨"d"⟩ [EntityList.Op.remove ⟨2, 0⟩, EntityList.Op.add ⟨"f"⟩] rfl rfl rfl
    (by
      intro j ej hj hg
      have hj1 : j < 1 := hj
      have hj0 : j = 0 := by omega
      subst hj0
      have : (⟨0, some ⟨"a"⟩⟩ : EntityEntry) = ej := by simpa using hg
      rw [← this]
      simp)

/-- Claim C3 counterexample: when both handles are stale at the same index
(the situation of the repo's own `get_pair` test, which asserts
`(None, None)`), `get_pair_mut` returns zero non-empty results — there is
no entity for which exactly one side of the pair is non-empty — refuting
"exactly one of the two results is non-empty" for arbitrary equal-index
handle pairs. -/
theorem c3_pair_counterexample :
    (⟨0, 0⟩ : EntityId).id = (⟨0, 1⟩ : EntityId).id ∧
    EntityList.get_pair_mut [⟨2, some ⟨"e"⟩⟩] ⟨0, 0⟩ ⟨0, 1⟩ = .ok (none, none) ∧
    ¬∃ e : Entity,
      EntityList.get_pair_mut [⟨2, some ⟨"e"⟩⟩] ⟨0, 0⟩ ⟨0, 1⟩ =
        .ok (some e, none) ∨
      EntityList.get_pair_mut [⟨2, some ⟨"e"⟩⟩] ⟨0, 0⟩ ⟨0, 1⟩ =
        .ok (none, some e) := by
  have base : EntityList.get_pair_mut [⟨2, some ⟨"e"⟩⟩] ⟨0, 0⟩ ⟨0, 1⟩ =
      .ok (none, none) := rfl
  refine ⟨rfl, base, ?_⟩
  rintro ⟨e, h | h⟩
  · have hp := RustResult.ok.inj (base.symm.trans h)
    exact Option.noConfusion (congrArg Prod.fst hp)
  · have hp := RustResult.ok.inj (base.symm.trans h)
    exact Option.noConfusion (congrArg Prod.snd hp)

/-- Claim C3 amended: for handles with equal indices, `get_pair_mut` never
returns two non-empty results; when the shared index holds an occupied slot,
the result whose generation matches the live slot is the one non-empty
result (the first result when `a` matches, otherwise the second when `b`
matches); when neither generation matches, or the slot is vacant or out of
range, both results are empty. -/
theorem c3_pair_amended (l : List EntityEntry) (a b : EntityId)
    (hab : a.id = b.id) :
    (∀ r : Option Entity × Option Entity,
      EntityList.get_pair_mut l a b = .ok r → ¬(r.1.isSome ∧ r.2.isSome)) ∧
    (∀ (entry : EntityEntry) (e : Entity), l.get? a.id = some entry →
      entry.entity = some e →
      (entry.gen = a.gen →
        EntityList.get_pair_mut l a b = .ok (some e, none)) ∧
      (entry.gen ≠ a.gen → entry.gen = b.gen →
        EntityList.get_pair_mut l a b = .ok (none, some e))) ∧
    (l.get? a.id = none → EntityList.get_pair_mut l a b = .ok (none, none)) ∧
    (∀ entry : EntityEntry, l.get? a.id = some entry → entry.entity = none →
      EntityList.get_pair_mut l a b = .ok (none, none)) ∧
    (∀ entry : EntityEntry, l.get? a.id = some entry →
      entry.gen ≠ a.gen → entry.gen ≠ b.gen →
      EntityList.get_pair_mut l a b = .ok (none, none)) := by
  unfold EntityList.get_pair_mut
  rw [if_neg (by omega), if_neg (by omega)]
  refine ⟨?_, ?_, ?_, ?_, ?_⟩
  · intro r hr
    split at hr
    · cases RustResult.ok.inj hr
      simp
    · cases RustResult.ok.inj hr
      simp
  · intro entry e hq hocc
    constructor
    · intro hgen
      rw [hq, if_neg (by simp [hgen])]
      simp only [Option.some_bind]
      unfold EntityList.entryGet
      rw [if_pos hgen, hocc]
    · intro hgen hgenb
      rw [hq, if_pos (by simp only [Option.map_some', Option.getD_some,
        decide_eq_true_eq]; exact fun hc => absurd hc.symm hgen)]
      rw [hab] at hq
      rw [hq]
      simp only [Option.some_bind]
      unfold EntityList.entryGet
      rw [if_pos hgenb, hocc]
  · intro hq
    have hqb : l.get? b.id = none := by rw [← hab]; exact hq
    rw [hq, hqb]
    rfl
  · intro entry hq hvac
    by_cases hga : entry.gen = a.gen
    · rw [hq, if_neg (by simp [hga])]
      simp only [Option.some_bind]
      unfold EntityList.entryGet
      rw [if_pos hga, hvac]
    · rw [hq, if_pos (by simp only [Option.map_some', Option.getD_some,
        decide_eq_true_eq]; exact fun hc => absurd hc.symm hga)]
      rw [hab] at hq
      rw [hq]
      simp only [Option.some_bind]
      unfold EntityList.entryGet
      split
      · rw [hvac]
      · rfl
  · intro entry hq hga hgb
    rw [hq, if_pos (by simp only [Option.map_some', Option.getD_some,
      decide_eq_true_eq]; exact fun hc => absurd hc.symm hga)]
    rw [hab] at hq
    rw [hq]
    simp only [Option.some_bind]
    unfold EntityList.entryGet
    rw [if_neg hgb]

theorem c3_pair_witness :
    EntityList.get_pair_mut [⟨1, some ⟨"d"⟩⟩] ⟨0, 1⟩ ⟨0, 0⟩ =
      .ok (some ⟨"d"⟩, none) ∧
    EntityList.get_pair_mut [⟨1, some ⟨"d"⟩⟩] ⟨0, 0⟩ ⟨0, 1⟩ =
      .ok (none, some ⟨"d"⟩) ∧
    EntityList.get_pair_mut [⟨1, some ⟨"d"⟩⟩] ⟨0, 5⟩ ⟨0, 6⟩ =
      .ok (none, none) ∧
    EntityList.get_pair_mut [⟨1, none⟩] ⟨0, 1⟩ ⟨0, 1⟩ = .ok (none, none) ∧
    EntityList.get_pair_mut [] ⟨0, 0⟩ ⟨0, 0⟩ = .ok (none, none) :=
  ⟨((c3_pair_amended [⟨1, some ⟨"d"⟩⟩] ⟨0, 1⟩ ⟨0, 0⟩ rfl).2.1 ⟨1, some ⟨"d"⟩⟩ ⟨"d"⟩
      rfl rfl).1 rfl,
   ((c3_pair_amended [⟨1, some ⟨"d"⟩⟩] ⟨0, 0⟩ ⟨0, 1⟩ rfl).2.1 ⟨1, some ⟨"d"⟩⟩ ⟨"d"⟩
      rfl rfl).2 (by decide) rfl,
   (c3_pair_amended [⟨1, some ⟨"d"⟩⟩] ⟨0, 5⟩ ⟨0, 6⟩ rfl).2.2.2.2 ⟨1, some ⟨"d"⟩⟩
      rfl (by decide) (by decide),
   (c3_pair_amended [⟨1, none⟩] ⟨0, 1⟩ ⟨0, 1⟩ rfl).2.2.2.1 ⟨1, none⟩ rfl rfl,
   (c3_pair_amended [] ⟨0, 0⟩ ⟨0, 0⟩ rfl).2.2.1 rfl⟩

/-- Claim C6 counterexample: a handle whose index has already been excluded
lies in no remaining view, so `exclude_copy` returns `none` — no
`(None, fork)` pair at all, refuting the claim for the already-excluded
case.  The state is reached from `new_all` by one successful `exclude`. -/
theorem c6_stale_fork_counterexample :
    (EntityDynIter.exclude
        (EntityDynIter.new_all
          [⟨0, some ⟨"a"⟩⟩, ⟨0, some ⟨"b"⟩⟩, ⟨0, some ⟨"c"⟩⟩]) ⟨1, 0⟩) =
      (some ⟨"b"⟩, [⟨0, [⟨0, some ⟨"a"⟩⟩]⟩, ⟨2, [⟨0, some ⟨"c"⟩⟩]⟩]) ∧
    EntityDynIter.exclude_copy
        [⟨0, [⟨0, some ⟨"a"⟩⟩]⟩, ⟨2, [⟨0, some ⟨"c"⟩⟩]⟩] ⟨1, 0⟩ = none := by
  decide

/-- Claim C6 amended: when the handle is stale (generation mismatch or
vacant slot) but its index still lies inside one of the views,
`exclude_copy` returns `some (none, fork)` with the fork equal to the
current views (the clone); when the index lies in no view — in particular
when it was already excluded — `exclude_copy` returns `none` and no fork
is produced. -/
theorem c6_stale_fork_amended (d : EntityDynIter) (id : EntityId) :
    (∀ (k : Nat) (sl : EntitySlice) (entry : EntityEntry),
      d.findIdx? (EntityDynIter.containsIdx id.id) = some k →
      d.get? k = some sl →
      sl.slice.get? (id.id - sl.start) = some entry →
      entry.gen ≠ id.gen ∨ entry.entity = none →
      EntityDynIter.exclude_copy d id = some (none, d)) ∧
    (d.findIdx? (EntityDynIter.containsIdx id.id) = none →
      EntityDynIter.exclude_copy d id = none) := by
  constructor
  · intro k sl entry hfind hget hentry hst
    exact (EntityDynIter.exclude_copy_of_found hfind hget hentry).1 hst
  · exact EntityDynIter.exclude_copy_of_not_found

theorem c6_stale_fork_witness :
    EntityDynIter.exclude_copy (EntityDynIter.new_all [⟨1, some ⟨"a"⟩⟩]) ⟨0, 0⟩ =
      some (none, EntityDynIter.new_all [⟨1, some ⟨"a"⟩⟩]) :=
  (c6_stale_fork_amended (EntityDynIter.new_all [⟨1, some ⟨"a"⟩⟩]) ⟨0, 0⟩).1
    0 ⟨0, [⟨1, some ⟨"a"⟩⟩]⟩ ⟨1, some ⟨"a"⟩⟩ rfl rfl rfl (Or.inl (by decide))

/-- Claim C9: `exclude_copy` only re-borrows the parent's views (the model
of `self` after the call is the value before it), so once the fork is
dropped the parent behaves as if the fork never existed: the handle that
was excluded through the fork is still present in the parent and excluding
it directly yields the same payload, and a stale fork leaves both the fork
and the parent's own `exclude` outcome exactly as before. -/
theorem c9_fork_consistency (d : EntityDynIter) (id : EntityId) :
    (∀ (e : Entity) (fork : EntityDynIter),
      EntityDynIter.exclude_copy d id = some (some e, fork) →
      (EntityDynIter.exclude d id).1 = some e) ∧
    (∀ fork : EntityDynIter,
      EntityDynIter.exclude_copy d id = some (none, fork) →
      fork = d ∧ EntityDynIter.exclude d id = (none, d)) := by
  constructor
  · intro e fork h
    rcases EntityDynIter.exclude_copy_some_inv h with ⟨hr, _⟩ | hsucc
    · exact absurd hr (by simp)
    · obtain ⟨k, sl, entry, hfind, hget, hentry, hs, hmlt, hgen, hocc, _⟩ := hsucc
      rw [(EntityDynIter.exclude_of_found hfind hget hentry).2 hgen
        (by rw [hocc]; simp)]
      exact hocc
  · intro fork h
    cases hfind : d.findIdx? (EntityDynIter.containsIdx id.id) with
    | none =>
      rw [EntityDynIter.exclude_copy_of_not_found hfind] at h
      exact absurd h (by simp)
    | some k =>
      obtain ⟨sl, hget, hcont⟩ := EntityDynIter.found_slice hfind
      obtain ⟨hs, hlt⟩ := EntityDynIter.containsIdx_bounds hcont
      have hmlt : id.id - sl.start < sl.slice.length := by omega
      have hentry : sl.slice.get? (id.id - sl.start) =
          some (sl.slice.get ⟨id.id - sl.start, hmlt⟩) := by
        simp
      by_cases hst : (sl.slice.get ⟨id.id - sl.start, hmlt⟩).gen ≠ id.gen ∨
          (sl.slice.get ⟨id.id - sl.start, hmlt⟩).entity = none
      · have hcopy := (EntityDynIter.exclude_copy_of_found hfind hget hentry).1 hst
        rw [hcopy] at h
        have hp := Option.some.inj h
        exact ⟨(congrArg Prod.snd hp).symm,
          (EntityDynIter.exclude_of_found hfind hget hentry).1 hst⟩
      · push_neg at hst
        obtain ⟨hgen, hocc⟩ := hst
        rw [(EntityDynIter.exclude_copy_of_found hfind hget hentry).2
          (by simpa using hgen) hocc] at h
        have hx : (sl.slice.get ⟨id.id - sl.start, hmlt⟩).entity =
            (none : Option Entity) := congrArg Prod.fst (Option.some.inj h)
        exact absurd hx hocc

theorem c9_fork_consistency_witness :
    (EntityDynIter.exclude [⟨0, [⟨0, some ⟨"a"⟩⟩, ⟨0, some ⟨"b"⟩⟩]⟩] ⟨1, 0⟩).1 =
      some ⟨"b"⟩ :=
  (c9_fork_consistency [⟨0, [⟨0, some ⟨"a"⟩⟩, ⟨0, some ⟨"b"⟩⟩]⟩] ⟨1, 0⟩).1 ⟨"b"⟩
    [⟨0, [⟨0, some ⟨"a"⟩⟩]⟩, ⟨2, []⟩] (by decide)

/-- Claim C10: every `(handle, payload)` pair yielded by `dyn_iter_id` of a
SplitIterator derived from registry `l` (built by `new_all` or `new_split`
and transformed by any number of `exclude` and `exclude_copy` calls)
round-trips through the registry: `get` at the yielded handle returns
exactly the yielded payload, because the handle's generation is read from
the slot and only occupied slots are yielded. -/
theorem c10_round_trip (l : List EntityEntry) (d : EntityDynIter)
    (hd : EntityDynIter.Derived l d) :
    ∀ p ∈ EntityDynIter.dyn_iter_id d, EntityList.get l p.1 = some p.2 :=
  EntityDynIter.get_of_agrees (EntityDynIter.agrees_of_derived hd)

theorem c10_round_trip_witness :
    EntityList.get [⟨0, some ⟨"a"⟩⟩, ⟨5, some ⟨"b"⟩⟩] ⟨1, 5⟩ = some ⟨"b"⟩ :=
  c10_round_trip [⟨0, some ⟨"a"⟩⟩, ⟨5, some ⟨"b"⟩⟩]
    (EntityDynIter.new_all [⟨0, some ⟨"a"⟩⟩, ⟨5, some ⟨"b"⟩⟩])
    EntityDynIter.Derived.all (⟨1, 5⟩, ⟨"b"⟩) (by decide)

theorem pairwise_dyn_iter_id_new_all (l : List EntityEntry) :
    List.Pairwise (fun p q => p.1.id < q.1.id)
      (EntityDynIter.dyn_iter_id (EntityDynIter.new_all l)) := by
  rw [EntityDynIter.dyn_iter_id_eq]
  simp only [EntityDynIter.new_all, List.flatMap_cons, List.flatMap_nil,
    List.append_nil]
  exact EntityDynIter.sliceYields_pairwise 0 l

theorem mem_dyn_iter_id_new_all {l : List EntityEntry} {p : EntityId × Entity} :
    p ∈ EntityDynIter.dyn_iter_id (EntityDynIter.new_all l) ↔
      ∃ entry, l.get? p.1.id = some entry ∧ entry.gen = p.1.gen ∧
        entry.entity = some p.2 := by
  rw [EntityDynIter.dyn_iter_id_eq]
  simp only [EntityDynIter.new_all, List.flatMap_cons, List.flatMap_nil,
    List.append_nil]
  constructor
  · intro hp
    rcases EntityDynIter.mem_sliceYields.mp hp with ⟨j, entry, hj, hocc, hfst⟩
    have hid : p.1.id = 0 + j := by rw [hfst]
    refine ⟨entry, ?_, ?_, hocc⟩
    · rw [List.get?_eq_getElem?, show p.1.id = j from by omega]
      exact hj
    · rw [hfst]
  · rintro ⟨entry, hq, hgen, hocc⟩
    apply EntityDynIter.mem_sliceYields.mpr
    refine ⟨p.1.id, entry, by simpa using hq, hocc, ?_⟩
    have heq : (⟨0 + p.1.id, entry.gen⟩ : EntityId) = ⟨p.1.id, p.1.gen⟩ := by
      simp only [EntityId.mk.injEq]
      exact ⟨by omega, hgen⟩
    rw [heq]

theorem pairwise_dyn_iter_id_new_split {l : List EntityEntry} {i : Nat}
    {c : EntityEntry} {d : EntityDynIter}
    (h : EntityDynIter.new_split l i = .ok (some (c, d))) :
    List.Pairwise (fun p q => p.1.id < q.1.id) (EntityDynIter.dyn_iter_id d) := by
  obtain ⟨hlen, hc, hd⟩ := EntityDynIter.new_split_ok_inv h
  subst hd
  rw [EntityDynIter.dyn_iter_id_eq]
  simp only [List.flatMap_cons, List.flatMap_nil, List.append_nil]
  rw [List.pairwise_append]
  refine ⟨EntityDynIter.sliceYields_pairwise _ _,
    EntityDynIter.sliceYields_pairwise _ _, ?_⟩
  intro p hp q hq
  have hpb := (EntityDynIter.sliceYields_bounds hp).2
  have hqb := (EntityDynIter.sliceYields_bounds hq).1
  have htl : (l.take i).length = i := by rw [List.length_take]; omega
  rw [htl] at hpb
  show p.1.id < q.1.id
  omega

theorem mem_dyn_iter_id_new_split {l : List EntityEntry} {i : Nat}
    {c : EntityEntry} {d : EntityDynIter}
    (h : EntityDynIter.new_split l i = .ok (some (c, d))) (p : EntityId × Entity) :
    p ∈ EntityDynIter.dyn_iter_id d ↔
      (p.1.id ≠ i ∧ ∃ entry, l.get? p.1.id = some entry ∧ entry.gen = p.1.gen ∧
        entry.entity = some p.2) := by
  obtain ⟨hlen, hc, hd⟩ := EntityDynIter.new_split_ok_inv h
  subst hd
  rw [EntityDynIter.dyn_iter_id_eq]
  simp only [List.flatMap_cons, List.flatMap_nil, List.append_nil]
  rw [List.mem_append]
  constructor
  · rintro (h1 | h2)
    · rcases EntityDynIter.mem_sliceYields.mp h1 with ⟨j, entry, hj, hocc, hfst⟩
      have hji : j < i := by
        by_contra hge
        rw [List.getElem?_take_eq_none (by omega)] at hj
        exact Option.noConfusion hj
      have hlj : l[j]? = some entry := by
        rw [← List.getElem?_take_of_lt hji]
        exact hj
      have hid : p.1.id = 0 + j := by rw [hfst]
      refine ⟨by omega, entry, ?_, ?_, hocc⟩
      · rw [List.get?_eq_getElem?, show p.1.id = j from by omega]
        exact hlj
      · rw [hfst]
    · rcases EntityDynIter.mem_sliceYields.mp h2 with ⟨j, entry, hj, hocc, hfst⟩
      rw [List.getElem?_drop] at hj
      have hid : p.1.id = i + 1 + j := by rw [hfst]
      refine ⟨by omega, entry, ?_, ?_, hocc⟩
      · rw [List.get?_eq_getElem?, show p.1.id = i + 1 + j from hid]
        exact hj
      · rw [hfst]
  · rintro ⟨hne, entry, hq, hgen, hocc⟩
    rw [List.get?_eq_getElem?] at hq
    rcases Nat.lt_or_ge p.1.id i with hlt | hge
    · left
      apply EntityDynIter.mem_sliceYields.mpr
      refine ⟨p.1.id, entry, ?_, hocc, ?_⟩
      · rw [List.getElem?_take_of_lt hlt]
        exact hq
      · have heq : (⟨0 + p.1.id, entry.gen⟩ : EntityId) = ⟨p.1.id, p.1.gen⟩ := by
          simp only [EntityId.mk.injEq]
          exact ⟨by omega, hgen⟩
        rw [heq]
    · right
      apply EntityDynIter.mem_sliceYields.mpr
      refine ⟨p.1.id - (i + 1), entry, ?_, hocc, ?_⟩
      · rw [List.getElem?_drop,
          show i + 1 + (p.1.id - (i + 1)) = p.1.id from by omega]
        exact hq
      · have heq : (⟨i + 1 + (p.1.id - (i + 1)), entry.gen⟩ : EntityId) =
            ⟨p.1.id, p.1.gen⟩ := by
          simp only [EntityId.mk.injEq]
          exact ⟨by omega, hgen⟩
        rw [heq]

/-- Claim C1 counterexample: over a six-slot registry, `new_split` at index 3
followed by one successful `exclude` of index 1 yields views whose starts
are `[0, 4, 2]` — not ascending — because `exclude` pushes the right
remainder at the end of the view collection; `dyn_iter_id` on that state
yields absolute indices `[0, 4, 5, 2]`, which is not strictly ascending. -/
theorem c1_order_counterexample :
    EntityDynIter.new_split
        [⟨0, some ⟨"a"⟩⟩, ⟨0, some ⟨"b"⟩⟩, ⟨0, some ⟨"c"⟩⟩, ⟨0, some ⟨"d"⟩⟩,
         ⟨0, some ⟨"e"⟩⟩, ⟨0, some ⟨"f"⟩⟩] 3 =
      .ok (some (⟨0, some ⟨"d"⟩⟩,
        [⟨0, [⟨0, some ⟨"a"⟩⟩, ⟨0, some ⟨"b"⟩⟩, ⟨0, some ⟨"c"⟩⟩]⟩,
         ⟨4, [⟨0, some ⟨"e"⟩⟩, ⟨0, some ⟨"f"⟩⟩]⟩])) ∧
    EntityDynIter.exclude
        [⟨0, [⟨0, some ⟨"a"⟩⟩, ⟨0, some ⟨"b"⟩⟩, ⟨0, some ⟨"c"⟩⟩]⟩,
         ⟨4, [⟨0, some ⟨"e"⟩⟩, ⟨0, some ⟨"f"⟩⟩]⟩] ⟨1, 0⟩ =
      (some ⟨"b"⟩,
        [⟨0, [⟨0, some ⟨"a"⟩⟩]⟩, ⟨4, [⟨0, some ⟨"e"⟩⟩, ⟨0, some ⟨"f"⟩⟩]⟩,
         ⟨2, [⟨0, some ⟨"c"⟩⟩]⟩]) ∧
    ([⟨0, [⟨0, some ⟨"a"⟩⟩]⟩, ⟨4, [⟨0, some ⟨"e"⟩⟩, ⟨0, some ⟨"f"⟩⟩]⟩,
      ⟨2, [⟨0, some ⟨"c"⟩⟩]⟩] : EntityDynIter).map EntitySlice.start = [0, 4, 2] ∧
    ¬ List.Pairwise (fun x y => x < y)
      (([⟨0, [⟨0, some ⟨"a"⟩⟩]⟩, ⟨4, [⟨0, some ⟨"e"⟩⟩, ⟨0, some ⟨"f"⟩⟩]⟩,
         ⟨2, [⟨0, some ⟨"c"⟩⟩]⟩] : EntityDynIter).map EntitySlice.start) ∧
    (EntityDynIter.dyn_iter_id
        [⟨0, [⟨0, some ⟨"a"⟩⟩]⟩, ⟨4, [⟨0, some ⟨"e"⟩⟩, ⟨0, some ⟨"f"⟩⟩]⟩,
         ⟨2, [⟨0, some ⟨"c"⟩⟩]⟩]).map (fun p => p.1.id) = [0, 4, 5, 2] ∧
    ¬ List.Pairwise (fun p q => p.1.id < q.1.id)
      (EntityDynIter.dyn_iter_id
        [⟨0, [⟨0, some ⟨"a"⟩⟩]⟩, ⟨4, [⟨0, some ⟨"e"⟩⟩, ⟨0, some ⟨"f"⟩⟩]⟩,
         ⟨2, [⟨0, some ⟨"c"⟩⟩]⟩]) := by
  decide

/-- Claim C1 amended: a freshly built SplitIterator iterates in strictly
ascending absolute-index order over exactly the occupied slots of its
domain (all slots for `from_whole`/`new_all`; all slots except the split
index for `split_at`/`new_split`), and each successful `exclude` removes
exactly the excluded element, keeping the rest of the iterated collection
as a permutation; but because `exclude` appends the right remainder view at
the end of the collection rather than in place, the views need not remain
ascending by `start` after an exclusion, and iteration after an exclusion
on a non-final view need not be in ascending absolute-index order. -/
theorem c1_order_amended :
    (∀ l : List EntityEntry,
      List.Pairwise (fun p q => p.1.id < q.1.id)
        (EntityDynIter.dyn_iter_id (EntityDynIter.new_all l)) ∧
      ∀ p : EntityId × Entity,
        p ∈ EntityDynIter.dyn_iter_id (EntityDynIter.new_all l) ↔
          ∃ entry, l.get? p.1.id = some entry ∧ entry.gen = p.1.gen ∧
            entry.entity = some p.2) ∧
    (∀ (l : List EntityEntry) (i : Nat) (c : EntityEntry) (d : EntityDynIter),
      EntityDynIter.new_split l i = .ok (some (c, d)) →
      List.Pairwise (fun p q => p.1.id < q.1.id) (EntityDynIter.dyn_iter_id d) ∧
      ∀ p : EntityId × Entity, p ∈ EntityDynIter.dyn_iter_id d ↔
        (p.1.id ≠ i ∧ ∃ entry, l.get? p.1.id = some entry ∧
          entry.gen = p.1.gen ∧ entry.entity = some p.2)) ∧
    (∀ (d : EntityDynIter) (id : EntityId) (e : Entity) (d2 : EntityDynIter),
      EntityDynIter.exclude d id = (some e, d2) →
      List.Perm (EntityDynIter.dyn_iter_id d)
        ((⟨id.id, id.gen⟩, e) :: EntityDynIter.dyn_iter_id d2)) :=
  ⟨fun l => ⟨pairwise_dyn_iter_id_new_all l, fun _ => mem_dyn_iter_id_new_all⟩,
   fun _ _ _ _ h => ⟨pairwise_dyn_iter_id_new_split h, mem_dyn_iter_id_new_split h⟩,
   fun _ _ _ _ h => EntityDynIter.exclude_some_perm h⟩

theorem c1_order_witness :
    List.Pairwise (fun p q => p.1.id < q.1.id)
      (EntityDynIter.dyn_iter_id
        (EntityDynIter.new_all [⟨0, some ⟨"a"⟩⟩, ⟨0, some ⟨"b"⟩⟩])) ∧
    List.Perm
      (EntityDynIter.dyn_iter_id [⟨0, [⟨0, some ⟨"a"⟩⟩, ⟨0, some ⟨"b"⟩⟩]⟩])
      ((⟨1, 0⟩, ⟨"b"⟩) ::
        EntityDynIter.dyn_iter_id [⟨0, [⟨0, some ⟨"a"⟩⟩]⟩, ⟨2, []⟩]) :=
  ⟨(c1_order_amended.1 [⟨0, some ⟨"a"⟩⟩, ⟨0, some ⟨"b"⟩⟩]).1,
   c1_order_amended.2.2 [⟨0, [⟨0, some ⟨"a"⟩⟩, ⟨0, some ⟨"b"⟩⟩]⟩] ⟨1, 0⟩ ⟨"b"⟩
     [⟨0, [⟨0, some ⟨"a"⟩⟩]⟩, ⟨2, []⟩] (by decide)⟩

